import Mathlib

/-!
Shallow embedding of the swap-discovery and funding-transaction utilities of the
repository: `SolanaSwapFindProvider` (history batching, phase-tagged transaction
scanning, parameter/secret validation, claim/refund lookups) and the bitcoin
utility module (`calculateFee`, `selectCoins`, `normalizeTransactionObject`).
Pure functions become Lean functions; JavaScript numbers become `ℚ`/`ℤ`/`ℕ`;
possibly-`undefined` values become `Option`; thrown errors become `Except`.
-/

set_option maxRecDepth 4000

/- The `instructions` tag table of `SolanaSwapFindProvider`:
`{ init: 0, claim: 1, refund: 2 }`. -/
namespace Instructions

def init : Nat := 0

def claim : Nat := 1

def refund : Nat := 2

end Instructions

/-- Swap parameters, as read by `_compareParams` and `_validateSecret`.
Addresses are their string forms; `value`/`expiration` are arbitrary-precision
(`BigNumber`) integers. -/
structure SwapParams where
  recipientAddress : String
  refundAddress : String
  secretHash : String
  value : Int
  expiration : Int
deriving DecidableEq

/-- The chain-specific `_raw` payload of a parsed transaction, exposing the
embedded instruction tag and the phase-specific fields read by the provider
(`buyer`, `seller`, `secret_hash`, `value`, `expiration` for initiate;
`secret` for claim).  Fields a given transaction does not carry are `none`. -/
structure RawPayload where
  instruction : Option Nat
  buyer : String
  seller : String
  secret_hash : String
  value : Int
  expiration : Int
  secret : Option String
deriving DecidableEq

/-- A parsed transaction as returned by `getParsedAndConfirmedTransactions`:
the `_raw` payload may be absent (the source guards with `data._raw?.`), and a
top-level `secret` field may be present. -/
structure TxData where
  hash : String
  _raw : Option RawPayload
  secret : Option String
deriving DecidableEq

/-- An entry of an address history as returned by `getAddressHistory`; only the
`signature` field is read (`pastTx.signature`). -/
structure TxRef where
  signature : String
deriving DecidableEq

/-- `_compareParams`: the Initiate-phase validation predicate. -/
def compareParams (swapParams : SwapParams) (initTxParams : RawPayload) : Bool :=
  swapParams.recipientAddress == initTxParams.buyer &&
  swapParams.refundAddress == initTxParams.seller &&
  swapParams.secretHash == initTxParams.secret_hash &&
  decide (swapParams.value = initTxParams.value) &&
  decide (swapParams.expiration = initTxParams.expiration)

/-- `_validateSecret`: the Claim-phase validation predicate.  The `sha256`
digest function comes from an external crypto package, so it is a parameter.
A payload with no `secret` field cannot hash to the fixed-length hex digest
`secretHash`, so that case is `false`. -/
def validateSecret (sha256 : String → String) (swapParams : SwapParams) (data : RawPayload) : Bool :=
  match data.secret with
  | some s => swapParams.secretHash == sha256 s
  | none => false

/-- `MAX_NUMBER_OF_REQUESTS` in `_batchSignatures`. -/
def MAX_NUMBER_OF_REQUESTS : Nat := 100

/-- `batches[currentBatch].push(x)` of `_batchSignatures`: the source keeps
`currentBatch = batches.length - 1`, so the push always goes to the last batch. -/
def pushLast (x : String) : List (List String) → List (List String)
  | [] => [[x]]
  | [b] => [b ++ [x]]
  | b :: bs => b :: pushLast x bs

/-- The indexed `forEach` body of `_batchSignatures`: at index `idx`, when
`idx && idx % MAX_NUMBER_OF_REQUESTS === 0`, a fresh batch is appended before
the signature is pushed. -/
def goBatch (batches : List (List String)) (idx : Nat) : List TxRef → List (List String)
  | [] => batches
  | pastTx :: rest =>
      let batches' :=
        if idx ≠ 0 ∧ idx % MAX_NUMBER_OF_REQUESTS = 0 then batches ++ [[]] else batches
      goBatch (pushLast pastTx.signature batches') (idx + 1) rest

/-- `_batchSignatures`: starts from `[[]]` and walks the history with indices
from `0`. -/
def batchSignatures (addressHistory : List TxRef) : List (List String) :=
  goBatch [[]] 0 addressHistory

/-- The inner (`j`) loop of `_findTransactionByAddress` over one row of the
matrix, including the `break`s: the first hit ends the row scan.  On a
validation hit the source performs `initTransaction.secret = data.secret`, a
self-assignment kept verbatim here.  An absent validation predicate is only
ever passed together with the refund instruction, for which the predicate
branch is unreachable. -/
def scanRow (instruction : Nat) (validation : Option (SwapParams → RawPayload → Bool))
    (swapParams : SwapParams) : List TxData → Option TxData
  | [] => none
  | data :: rest =>
      match data._raw with
      | some r =>
          if r.instruction = some instruction then
            if instruction = Instructions.refund then
              some data
            else if (match validation with | some v => v swapParams r | none => false) then
              some { data with secret := data.secret }
            else
              scanRow instruction validation swapParams rest
          else
            scanRow instruction validation swapParams rest
      | none => scanRow instruction validation swapParams rest

/-- The outer (`i`) loop of `_findTransactionByAddress`: rows are scanned in
batch order, and the outer loop stops as soon as `initTransaction` is set. -/
def scanMatrix (instruction : Nat) (validation : Option (SwapParams → RawPayload → Bool))
    (swapParams : SwapParams) : List (List TxData) → Option TxData
  | [] => none
  | row :: rows =>
      match scanRow instruction validation swapParams row with
      | some found => some found
      | none => scanMatrix instruction validation swapParams rows

/-- `_findTransactionByAddress`.  The collaborators `getAddressHistory` and
`getParsedAndConfirmedTransactions` are reached through the provider's
method-lookup and are parameters here. -/
def findTransactionByAddress (getAddressHistory : String → List TxRef)
    (getParsedAndConfirmedTransactions : List String → List TxData)
    (address : String) (swapParams : SwapParams) (instruction : Nat)
    (validation : Option (SwapParams → RawPayload → Bool)) : Option TxData :=
  let addressHistory := getAddressHistory address
  let batch := batchSignatures addressHistory
  let matrix := batch.map getParsedAndConfirmedTransactions
  scanMatrix instruction validation swapParams matrix

/-- Errors thrown by the phase-specific finders: `PendingTxError` when the
initiation transaction is not yet available, and the JavaScript `TypeError`
that destructuring `initTransaction._raw` would raise were `_raw` absent. -/
inductive FindError where
  | pendingTx (message : String)
  | typeError
deriving DecidableEq

/-- `findClaimSwapTransaction`: fetches the initiation transaction by hash
(through the same `getParsedAndConfirmedTransactions` collaborator), throws
`PendingTxError` when it is absent, then searches the buyer's history for a
claim-tagged transaction validated by `_validateSecret`. -/
def findClaimSwapTransaction (getAddressHistory : String → List TxRef)
    (getParsedAndConfirmedTransactions : List String → List TxData)
    (sha256 : String → String)
    (swapParams : SwapParams) (initiationTxHash : String) : Except FindError (Option TxData) :=
  match (getParsedAndConfirmedTransactions [initiationTxHash]).head? with
  | none => .error (.pendingTx ("Transaction receipt is not available: " ++ initiationTxHash))
  | some initTransaction =>
      match initTransaction._raw with
      | none => .error .typeError
      | some r =>
          .ok (findTransactionByAddress getAddressHistory getParsedAndConfirmedTransactions
            r.buyer swapParams Instructions.claim (some (validateSecret sha256)))

/-- `findRefundSwapTransaction`: as the claim finder, but searches the seller's
history for a refund-tagged transaction, with no validation predicate. -/
def findRefundSwapTransaction (getAddressHistory : String → List TxRef)
    (getParsedAndConfirmedTransactions : List String → List TxData)
    (swapParams : SwapParams) (initiationTxHash : String) : Except FindError (Option TxData) :=
  match (getParsedAndConfirmedTransactions [initiationTxHash]).head? with
  | none => .error (.pendingTx ("Transaction receipt is not available: " ++ initiationTxHash))
  | some initTransaction =>
      match initTransaction._raw with
      | none => .error .typeError
      | some r =>
          .ok (findTransactionByAddress getAddressHistory getParsedAndConfirmedTransactions
            r.seller swapParams Instructions.refund none)

/-- `findInitiateSwapTransaction`: searches the refund address's own history
for the init tag validated by `_compareParams`. -/
def findInitiateSwapTransaction (getAddressHistory : String → List TxRef)
    (getParsedAndConfirmedTransactions : List String → List TxData)
    (swapParams : SwapParams) : Option TxData :=
  findTransactionByAddress getAddressHistory getParsedAndConfirmedTransactions
    swapParams.refundAddress swapParams Instructions.init (some compareParams)

/-- The acceptance predicate of the spec's scan step (§4.7 steps 4-5): the
embedded tag must equal the requested tag, and a refund-tagged transaction is
accepted on the tag alone while any other phase additionally requires the
validation predicate to hold. -/
def acceptedForPhase (instruction : Nat) (validation : Option (SwapParams → RawPayload → Bool))
    (swapParams : SwapParams) (data : TxData) : Bool :=
  match data._raw with
  | some r =>
      r.instruction == some instruction &&
        (instruction == Instructions.refund ||
          (match validation with | some v => v swapParams r | none => false))
  | none => false

/-- Modelled from the spec: the `getParsedAndConfirmedTransactions`
collaborator (repository code outside `src/`) returns parsed transactions
whose chain-specific raw payload exposes the phase fields, the claim phase's
revealed secret being surfaced on the transaction object itself (§6, §4.7
step 6).  A transaction honours that contract when its top-level `secret`
agrees with the payload's revealed secret whenever the latter is present. -/
def exposesPayloadSecret (data : TxData) : Bool :=
  match data._raw with
  | some r =>
      match r.secret with
      | some _ => data.secret == r.secret
      | none => true
  | none => true

/-- An unspent output, as consumed by `selectCoins`.  Only `txid`, `vout` and
`value` (smallest units) are read. -/
structure UTXO where
  txid : String
  vout : Nat
  value : Nat
deriving DecidableEq

/-- A requested output of a coin selection. -/
structure OutputTarget where
  address : String
  value : Rat
deriving DecidableEq

/-- The `{ inputs, outputs, fee }` record produced by the `coinselect`
strategies and returned verbatim by `selectCoins`: on failure the strategy
omits `inputs` and `outputs` (they are `undefined`), hence the `Option`s. -/
structure CoinSelectResult where
  inputs : Option (List UTXO)
  outputs : Option (List OutputTarget)
  fee : Rat
deriving DecidableEq

/-- `calculateFee`: the byte-cost fee estimator
`((numInputs * 148) + (numOutputs * 34) + 10) * feePerByte`. -/
def calculateFee (numInputs numOutputs : Nat) (feePerByte : Rat) : Rat :=
  ((numInputs : Rat) * 148 + (numOutputs : Rat) * 34 + 10) * feePerByte

/-- `selectCoins`: picks the strategy (`coinselect/accumulative` when
`fixedInputs` is non-empty, plain `coinselect` otherwise), moves the fixed
inputs to the front of the candidate list with the already-pinned UTXOs
filtered out, and calls the strategy with `Math.ceil(feePerByte)`.  The two
strategies live in the external `coinselect` package and are parameters. -/
def selectCoins (coinselect coinselectAccumulative : List UTXO → List OutputTarget → Int → CoinSelectResult)
    (utxos : List UTXO) (targets : List OutputTarget) (feePerByte : Rat)
    (fixedInputs : List UTXO) : CoinSelectResult :=
  let coinselectStrat := if fixedInputs.length ≠ 0 then coinselectAccumulative else coinselect
  let selectUtxos :=
    if fixedInputs.length ≠ 0 then
      fixedInputs ++ utxos.filter (fun utxo =>
        !(fixedInputs.any (fun input => input.vout == utxo.vout && input.txid == utxo.txid)))
    else utxos
  coinselectStrat selectUtxos targets ⌈feePerByte⌉

/-- Sum of the requested target amounts. -/
def targetsTotal (targets : List OutputTarget) : Rat :=
  (targets.map (fun t => t.value)).sum

/-- Sum of the values of a UTXO list. -/
def utxoTotal (utxos : List UTXO) : Nat :=
  (utxos.map (fun u => u.value)).sum

/-- Modelled from the spec: the dust threshold below which no change output is
appended (§4.2 point 2); the spec does not pin the constant, so the
conventional 546 smallest units is used. -/
def dustThreshold : Rat := 546

/-- Modelled from the spec: one step of the accumulative strategy of the
external `coinselect/accumulative` package (absent from `src/`) — candidates
are added in list order until the selected value covers the targets plus the
fee estimated for the inputs selected so far (one change output allowed),
recomputing the fee at each step; reaching the end of the candidates leaves
`inputs`/`outputs` absent (§4.2). -/
def accumulativeGo (targets : List OutputTarget) (feeRate : Rat)
    (selected : List UTXO) (inAccum : Nat) : List UTXO → CoinSelectResult
  | [] => { inputs := none, outputs := none,
            fee := calculateFee selected.length (targets.length + 1) feeRate }
  | u :: rest =>
      let selected' := selected ++ [u]
      let inAccum' := inAccum + u.value
      let fee := calculateFee selected'.length (targets.length + 1) feeRate
      if targetsTotal targets + fee ≤ (inAccum' : Rat) then
        let leftover := (inAccum' : Rat) - targetsTotal targets - fee
        { inputs := some selected',
          outputs := some (targets ++
            (if dustThreshold < leftover then [{ address := "change", value := leftover }] else [])),
          fee := fee }
      else
        accumulativeGo targets feeRate selected' inAccum' rest

/-- Modelled from the spec: the accumulative selection strategy (§4.2),
starting from an empty selection. -/
def accumulativeStrategy (utxos : List UTXO) (targets : List OutputTarget)
    (feeRate : Int) : CoinSelectResult :=
  accumulativeGo targets (feeRate : Rat) [] 0 utxos

/-- Insert a UTXO into a value-descending list, keeping it sorted. -/
def insertDesc (u : UTXO) : List UTXO → List UTXO
  | [] => [u]
  | v :: rest => if v.value ≤ u.value then u :: v :: rest else v :: insertDesc u rest

/-- Sort a UTXO list by value, largest first. -/
def sortDesc : List UTXO → List UTXO
  | [] => []
  | u :: rest => insertDesc u (sortDesc rest)

/-- Modelled from the spec: the size-optimizing default strategy of the
external `coinselect` package (absent from `src/`) — prefers fewer,
larger-value inputs, with the same coverage condition and failure semantics
as the accumulative strategy (§4.2); realised as accumulation over the
candidates in descending value order. -/
def sizeOptimizingStrategy (utxos : List UTXO) (targets : List OutputTarget)
    (feeRate : Int) : CoinSelectResult :=
  accumulativeGo targets (feeRate : Rat) [] 0 (sortDesc utxos)

/-- A transaction output as read by `normalizeTransactionObject`: only the
whole-coin `value` field is used there. -/
structure TxOutput where
  value : Rat
deriving DecidableEq

/-- The slice of a canonical bitcoin transaction read by
`normalizeTransactionObject`: `txid`, `vsize`, the outputs, and the optional
`confirmations` count. -/
structure BtcTransaction where
  txid : String
  vsize : Nat
  vout : List TxOutput
  confirmations : Option Nat
deriving DecidableEq

/-- A confirming block: `hash` and `number`. -/
structure Block where
  hash : String
  number : Nat
deriving DecidableEq

/-- The normalized transaction summary built by `normalizeTransactionObject`.
Fields the source only sets inside its `if` blocks are `Option`s, `none`
meaning the key is absent from the result object. -/
structure NormalizedTx where
  hash : String
  value : Rat
  _raw : BtcTransaction
  confirmations : Option Nat
  fee : Option Rat
  feePrice : Option Int
  blockHash : Option String
  blockNumber : Option Nat
deriving DecidableEq

/-- JavaScript's `Math.round`: round half away from zero towards positive
infinity, i.e. `⌊x + 1/2⌋`. -/
def mathRound (x : Rat) : Int := ⌊x + 1 / 2⌋

/-- `normalizeTransactionObject`: sums the output values times `1e8` with
arbitrary-precision arithmetic, always sets `confirmations: 0`, then — only
when `fee` is truthy (present and non-zero) — adds `fee` and
`feePrice = Math.round(fee / tx.vsize)`, and — only when `block` is present —
adds `blockHash`, `blockNumber` and overwrites `confirmations` with
`tx.confirmations`. -/
def normalizeTransactionObject (tx : BtcTransaction) (fee : Option Rat)
    (block : Option Block) : NormalizedTx :=
  let value := tx.vout.foldl (fun p n => p + n.value * 100000000) 0
  let result : NormalizedTx :=
    { hash := tx.txid, value := value, _raw := tx, confirmations := some 0,
      fee := none, feePrice := none, blockHash := none, blockNumber := none }
  let result :=
    match fee with
    | some f =>
        if f ≠ 0 then
          { result with fee := some f, feePrice := some (mathRound (f / (tx.vsize : Rat))) }
        else result
    | none => result
  match block with
  | some b =>
      { result with blockHash := some b.hash, blockNumber := some b.number,
                    confirmations := tx.confirmations }
  | none => result

/-! ## Theorems -/

/-- C7: `_compareParams` returns `true` exactly when all five fields match the
swap parameters — recipient address = payload buyer, refund address = payload
seller, exact secret-hash match, and exact arbitrary-precision equality of
value and expiration — and hence `false` whenever any single field differs. -/
theorem compareParams_iff (sp : SwapParams) (p : RawPayload) :
    compareParams sp p = true ↔
      (sp.recipientAddress = p.buyer ∧ sp.refundAddress = p.seller ∧
       sp.secretHash = p.secret_hash ∧ sp.value = p.value ∧ sp.expiration = p.expiration) := by
  simp [compareParams, Bool.and_eq_true, beq_iff_eq, decide_eq_true_eq, and_assoc]

/-- C3 (counterexample): the fee estimator does not round its fee-rate
argument up: at `n = m = 1`, `r = 3/2` it returns `192 * (3/2) = 288`, not
`192 * ⌈3/2⌉ = 384`, refuting `fee(n, m, r) = (148n + 34m + 10) * ceil(r)`. -/
theorem calculateFee_ceil_counterexample :
    ¬ (calculateFee 1 1 (3 / 2) = ((148 * 1 + 34 * 1 + 10 : Rat)) * (⌈(3 / 2 : Rat)⌉ : Rat)) := by
  have hceil : (⌈(3 / 2 : Rat)⌉ : Int) = 2 := by
    rw [Int.ceil_eq_iff] <;> norm_num
  rw [calculateFee, hceil]
  norm_num

/-- C3 (amended): the fee estimator satisfies the exact formula
`fee(n, m, r) = (148n + 34m + 10) * r` with no rounding of its own; the
rounding-up of the fee rate to a whole unit happens in `selectCoins`, which
hands `Math.ceil(feePerByte)` to the selection strategy — so `selectCoins` is
unchanged by replacing its fee rate with its ceiling. -/
theorem calculateFee_exact_formula :
    (∀ (n m : Nat) (r : Rat), calculateFee n m r = (148 * n + 34 * m + 10) * r) ∧
    (∀ (cs acc : List UTXO → List OutputTarget → Int → CoinSelectResult)
       (utxos : List UTXO) (targets : List OutputTarget) (r : Rat) (fixed : List UTXO),
       selectCoins cs acc utxos targets r fixed = selectCoins cs acc utxos targets (⌈r⌉ : Rat) fixed) := by
  constructor
  · intro n m r
    simp only [calculateFee]
    ring
  · intro cs acc utxos targets r fixed
    simp [selectCoins, Int.ceil_intCast]

/-- C6: when the initiation transaction referenced by `initiationTxHash` is
not yet observable, `findClaimSwapTransaction` and
`findRefundSwapTransaction` fail with the distinct `PendingTxError`
condition, and in particular return no ordinary (`.ok`) result at all. -/
theorem findSwap_pending_when_initiation_missing
    (getAddressHistory : String → List TxRef)
    (getParsed : List String → List TxData) (sha256 : String → String)
    (swapParams : SwapParams) (initiationTxHash : String)
    (h : (getParsed [initiationTxHash]).head? = none) :
    findClaimSwapTransaction getAddressHistory getParsed sha256 swapParams initiationTxHash
        = .error (.pendingTx ("Transaction receipt is not available: " ++ initiationTxHash)) ∧
    findRefundSwapTransaction getAddressHistory getParsed swapParams initiationTxHash
        = .error (.pendingTx ("Transaction receipt is not available: " ++ initiationTxHash)) ∧
    ∀ result : Option TxData,
      findClaimSwapTransaction getAddressHistory getParsed sha256 swapParams initiationTxHash ≠ .ok result ∧
      findRefundSwapTransaction getAddressHistory getParsed swapParams initiationTxHash ≠ .ok result := by
  refine ⟨?_, ?_, ?_⟩
  all_goals simp [findClaimSwapTransaction, findRefundSwapTransaction, h]

/-- C6 (witness): with a collaborator that knows no transactions, the claim
finder reports the pending-transaction error. -/
theorem findSwap_pending_witness :
    findClaimSwapTransaction (fun _ => []) (fun _ => []) (fun s => s)
      (SwapParams.mk "r" "f" "h" 0 0) "tx0"
      = .error (.pendingTx ("Transaction receipt is not available: " ++ "tx0")) := by
  have h : ((fun _ => ([] : List TxData)) ["tx0"]).head? = none := rfl
  exact (findSwap_pending_when_initiation_missing (fun _ => []) (fun _ => []) (fun s => s)
    (SwapParams.mk "r" "f" "h" 0 0) "tx0" h).1

/-- C5: with a non-empty `fixedInputs`, `selectCoins` runs the accumulative
strategy over exactly the fixed inputs (in their given order) followed by the
UTXOs not already pinned — pinned meaning some fixed input shares both `txid`
and `vout` — and with empty `fixedInputs` it runs the size-optimizing
strategy over the original UTXO list; either way the strategy receives the
ceiled fee rate. -/
theorem selectCoins_strategy_selection
    (cs acc : List UTXO → List OutputTarget → Int → CoinSelectResult)
    (utxos : List UTXO) (targets : List OutputTarget) (r : Rat) (fixedInputs : List UTXO) :
    selectCoins cs acc utxos targets r fixedInputs =
      if fixedInputs = [] then cs utxos targets ⌈r⌉
      else acc (fixedInputs ++ utxos.filter (fun u =>
              decide (¬ ∃ i ∈ fixedInputs, i.vout = u.vout ∧ i.txid = u.txid)))
             targets ⌈r⌉ := by
  have hpred : ∀ u : UTXO,
      (!(fixedInputs.any (fun input => input.vout == u.vout && input.txid == u.txid)))
        = decide (¬ ∃ i ∈ fixedInputs, i.vout = u.vout ∧ i.txid = u.txid) := by
    intro u
    by_cases h : ∃ i ∈ fixedInputs, i.vout = u.vout ∧ i.txid = u.txid
    · have h2 : (fixedInputs.any fun input => input.vout == u.vout && input.txid == u.txid) = true := by
        rw [List.any_eq_true]
        obtain ⟨i, hi, h1, h3⟩ := h
        exact ⟨i, hi, by simp [h1, h3]⟩
      simp [h, h2]
    · have h2 : (fixedInputs.any fun input => input.vout == u.vout && input.txid == u.txid) = false := by
        rw [List.any_eq_false]
        intro i hi
        simp only [Bool.and_eq_true, beq_iff_eq, not_and]
        intro hv ht
        exact h ⟨i, hi, hv, ht⟩
      simp [h, h2]
  cases fixedInputs with
  | nil => simp [selectCoins]
  | cons a l =>
      have hne : (a :: l).length ≠ 0 := by simp
      rw [if_neg (by simp : ¬(a :: l = []))]
      simp only [selectCoins]
      rw [if_pos hne, if_pos hne]
      have hfil : List.filter (fun utxo =>
            !(a :: l).any fun input => input.vout == utxo.vout && input.txid == utxo.txid) utxos
          = List.filter (fun u => decide (¬ ∃ i ∈ a :: l, i.vout = u.vout ∧ i.txid = u.txid)) utxos :=
        List.filter_congr (fun u _ => hpred u)
      rw [hfil]

/-- C5 (witness): one fixed input pins the matching UTXO, so the accumulative
strategy sees the fixed input first and the other UTXO after it. -/
theorem selectCoins_strategy_witness :
    selectCoins (fun u t _ => CoinSelectResult.mk (some u) (some t) 0)
      (fun u t _ => CoinSelectResult.mk (some u) (some t) 0)
      [UTXO.mk "a" 0 5, UTXO.mk "b" 1 7] [OutputTarget.mk "t" 6] 1 [UTXO.mk "a" 0 5]
      = CoinSelectResult.mk (some [UTXO.mk "a" 0 5, UTXO.mk "b" 1 7]) (some [OutputTarget.mk "t" 6]) 0 := by
  rw [selectCoins_strategy_selection]
  rfl

/-- C9 (counterexample): for a transaction with no confirming block provided,
the normalized result's confirmation count is not absent — it is present and
defaulted to `0`, contradicting the claim that omitting `block` leaves the
confirmation-count field absent. -/
theorem normalize_confirmations_counterexample :
    (normalizeTransactionObject (BtcTransaction.mk "t" 1 [] none) none none).confirmations = some 0 ∧
    (normalizeTransactionObject (BtcTransaction.mk "t" 1 [] none) none none).confirmations ≠ none := by
  constructor
  · rfl
  · simp [normalizeTransactionObject]

/-- C9 (amended): `fee` and `block` are optional and independently omittable
in `normalizeTransactionObject`: omitting `fee` leaves the fee and fee-price
fields absent (a provided fee populates them only when non-zero, fee being
truthiness-checked); omitting `block` leaves the block hash and block number
absent; the confirmation count, however, is always present — `0` without a
block and the transaction's own count with one — and each argument populates
only its own fields. -/
theorem normalize_optional_fields (tx : BtcTransaction) (fee : Option Rat) (block : Option Block) :
    ((normalizeTransactionObject tx none block).fee = none ∧
     (normalizeTransactionObject tx none block).feePrice = none) ∧
    ((normalizeTransactionObject tx fee none).blockHash = none ∧
     (normalizeTransactionObject tx fee none).blockNumber = none ∧
     (normalizeTransactionObject tx fee none).confirmations = some 0) ∧
    (∀ b : Block,
      (normalizeTransactionObject tx fee (some b)).blockHash = some b.hash ∧
      (normalizeTransactionObject tx fee (some b)).blockNumber = some b.number ∧
      (normalizeTransactionObject tx fee (some b)).confirmations = tx.confirmations) ∧
    (∀ f : Rat, (normalizeTransactionObject tx (some f) block).fee
        = if f = 0 then none else some f) ∧
    ((normalizeTransactionObject tx fee block).fee = (normalizeTransactionObject tx fee none).fee ∧
     (normalizeTransactionObject tx fee block).feePrice = (normalizeTransactionObject tx fee none).feePrice ∧
     (normalizeTransactionObject tx fee block).blockHash = (normalizeTransactionObject tx none block).blockHash ∧
     (normalizeTransactionObject tx fee block).blockNumber = (normalizeTransactionObject tx none block).blockNumber) := by
  rcases fee with _ | f <;> rcases block with _ | b <;>
    simp only [normalizeTransactionObject] <;> and_intros <;>
    intros <;> (try split) <;> simp_all

/-- Pushing onto the last batch, in normal form: the front batches are
untouched and the signature lands at the end of the final batch. -/
theorem pushLast_concat (x : String) (front : List (List String)) (last : List String) :
    pushLast x (front ++ [last]) = front ++ [last ++ [x]] := by
  induction front with
  | nil => rfl
  | cons b bs ih =>
      cases bs with
      | nil => rfl
      | cons c cs =>
          show b :: pushLast x ((c :: cs) ++ [last]) = b :: ((c :: cs) ++ [last ++ [x]])
          rw [ih]

/-- Flattening the batches built by the `forEach` walk recovers the batches
already closed, the open batch, and the signatures still to be processed, in
order. -/
theorem goBatch_flatten (rest : List TxRef) : ∀ (i : Nat) (front : List (List String)) (last : List String),
    (goBatch (front ++ [last]) i rest).flatten
      = front.flatten ++ last ++ rest.map (fun t => t.signature) := by
  induction rest with
  | nil => intro i front last; simp [goBatch, List.flatten_append]
  | cons t rest ih =>
      intro i front last
      simp only [goBatch]
      by_cases h : i ≠ 0 ∧ i % MAX_NUMBER_OF_REQUESTS = 0
      · rw [if_pos h, pushLast_concat, ih]
        simp [List.flatten_append]
      · rw [if_neg h, pushLast_concat, ih]
        simp

/-- Every batch built by the `forEach` walk stays within the batch size: the
open batch's fill level is bounded by how far the index is past the last
multiple of the batch size. -/
theorem goBatch_le (rest : List TxRef) : ∀ (i : Nat) (front : List (List String)) (last : List String),
    (∀ b ∈ front, b.length ≤ MAX_NUMBER_OF_REQUESTS) →
    last.length ≤ i - MAX_NUMBER_OF_REQUESTS * ((i - 1) / MAX_NUMBER_OF_REQUESTS) →
    ∀ b ∈ goBatch (front ++ [last]) i rest, b.length ≤ MAX_NUMBER_OF_REQUESTS := by
  induction rest with
  | nil =>
      intro i front last hfront hlast b hb
      simp only [goBatch] at hb
      rcases List.mem_append.1 hb with hb | hb
      · exact hfront b hb
      · simp only [List.mem_singleton] at hb
        subst hb
        simp only [MAX_NUMBER_OF_REQUESTS] at hlast ⊢
        omega
  | cons t rest ih =>
      intro i front last hfront hlast
      simp only [goBatch]
      by_cases h : i ≠ 0 ∧ i % MAX_NUMBER_OF_REQUESTS = 0
      · rw [if_pos h, pushLast_concat]
        apply ih (i + 1) (front ++ [last]) ([] ++ [t.signature])
        · intro b hb
          rcases List.mem_append.1 hb with hb | hb
          · exact hfront b hb
          · simp only [List.mem_singleton] at hb
            subst hb
            simp only [MAX_NUMBER_OF_REQUESTS] at hlast ⊢
            omega
        · simp only [MAX_NUMBER_OF_REQUESTS] at h ⊢
          simp only [List.nil_append, List.length_singleton]
          omega
      · rw [if_neg h, pushLast_concat]
        apply ih (i + 1) front (last ++ [t.signature]) hfront
        simp only [MAX_NUMBER_OF_REQUESTS] at h hlast ⊢
        simp only [List.length_append, List.length_singleton]
        omega

/-- The shape (lengths) of the batches depends only on how many signatures are
processed, not on which. -/
theorem goBatch_map_length (rest : List TxRef) : ∀ (rest' : List TxRef) (i : Nat)
    (front front' : List (List String)) (last last' : List String),
    rest.length = rest'.length →
    front.map List.length = front'.map List.length →
    last.length = last'.length →
    (goBatch (front ++ [last]) i rest).map List.length
      = (goBatch (front' ++ [last']) i rest').map List.length := by
  induction rest with
  | nil =>
      intro rest' i front front' last last' hlen hf hl
      cases rest' with
      | nil => simp only [goBatch, List.map_append, hf, hl, List.map_cons, List.map_nil]
      | cons u us => simp at hlen
  | cons t rest ih =>
      intro rest' i front front' last last' hlen hf hl
      cases rest' with
      | nil => simp at hlen
      | cons u us =>
          simp only [goBatch]
          by_cases h : i ≠ 0 ∧ i % MAX_NUMBER_OF_REQUESTS = 0
          · rw [if_pos h, if_pos h, pushLast_concat, pushLast_concat]
            apply ih us (i + 1)
            · simpa using hlen
            · simp only [List.map_append, hf, hl, List.map_cons, List.map_nil]
            · rfl
          · rw [if_neg h, if_neg h, pushLast_concat, pushLast_concat]
            apply ih us (i + 1)
            · simpa using hlen
            · exact hf
            · simp [hl]

/-- C8: `_batchSignatures` partitions any address history into consecutive
chunks of at most 100 signatures, preserving the original order within and
across chunks (concatenating the chunks reproduces the history's signature
sequence); a history of 250 entries yields exactly 3 batches of sizes
100, 100 and 50, in original order. -/
theorem batchSignatures_partition (hist : List TxRef) :
    (∀ b ∈ batchSignatures hist, b.length ≤ MAX_NUMBER_OF_REQUESTS) ∧
    (batchSignatures hist).flatten = hist.map (fun t => t.signature) ∧
    (hist.length = 250 → (batchSignatures hist).map List.length = [100, 100, 50]) := by
  refine ⟨?_, ?_, ?_⟩
  · exact goBatch_le hist 0 [] [] (by simp) (by simp)
  · simpa using goBatch_flatten hist 0 [] []
  · intro h250
    have heq : (batchSignatures hist).map List.length
        = (batchSignatures (List.replicate 250 (TxRef.mk "s"))).map List.length := by
      apply goBatch_map_length hist (List.replicate 250 (TxRef.mk "s")) 0 [] [] [] []
      · simp [h250]
      · rfl
      · rfl
    rw [heq]
    decide

/-- C8 (witness): a concrete 250-entry history batches into sizes
100, 100, 50. -/
theorem batchSignatures_partition_witness :
    (batchSignatures (List.replicate 250 (TxRef.mk "s"))).map List.length = [100, 100, 50] :=
  (batchSignatures_partition (List.replicate 250 (TxRef.mk "s"))).2.2 (by simp)

/-- C10: for an empty address history `_batchSignatures` returns one batch of
zero signatures (`[[]]`, not `[]`), so `_findTransactionByAddress` still
issues exactly one batch fetch — with an empty reference list — and scans the
one-row matrix it produces. -/
theorem batchSignatures_empty_history :
    batchSignatures [] = [[]] ∧
    ∀ (getParsed : List String → List TxData) (address : String)
      (swapParams : SwapParams) (instruction : Nat)
      (validation : Option (SwapParams → RawPayload → Bool)),
      (batchSignatures []).map getParsed = [getParsed []] ∧
      findTransactionByAddress (fun _ => []) getParsed address swapParams instruction validation
        = scanMatrix instruction validation swapParams [getParsed []] := by
  exact ⟨rfl, fun getParsed address swapParams instruction validation => ⟨rfl, rfl⟩⟩

/-- The row scan is the first match of the acceptance predicate within the
row. -/
theorem scanRow_eq_find? (instruction : Nat) (validation : Option (SwapParams → RawPayload → Bool))
    (swapParams : SwapParams) (row : List TxData) :
    scanRow instruction validation swapParams row
      = row.find? (acceptedForPhase instruction validation swapParams) := by
  induction row with
  | nil => rfl
  | cons d rest ih =>
      obtain ⟨dh, draw, dsec⟩ := d
      cases draw with
      | none =>
          have hstep : scanRow instruction validation swapParams (⟨dh, none, dsec⟩ :: rest)
              = scanRow instruction validation swapParams rest := rfl
          rw [hstep, ih, List.find?_cons_of_neg]
          simp [acceptedForPhase]
      | some r =>
          cases validation with
          | none =>
              simp only [scanRow]
              by_cases hi : r.instruction = some instruction
              · by_cases href : instruction = Instructions.refund
                · rw [if_pos hi, if_pos href, List.find?_cons_of_pos]
                  simp [acceptedForPhase, hi, href]
                · rw [if_pos hi, if_neg href, if_neg (by simp), ih, List.find?_cons_of_neg]
                  simp [acceptedForPhase, hi, href]
              · rw [if_neg hi, ih, List.find?_cons_of_neg]
                simp [acceptedForPhase, hi]
          | some v =>
              simp only [scanRow]
              by_cases hi : r.instruction = some instruction
              · by_cases href : instruction = Instructions.refund
                · rw [if_pos hi, if_pos href, List.find?_cons_of_pos]
                  simp [acceptedForPhase, hi, href]
                · rw [if_pos hi, if_neg href]
                  by_cases hv : v swapParams r = true
                  · rw [if_pos hv, List.find?_cons_of_pos]
                    simp [acceptedForPhase, hi, hv]
                  · have hv' : v swapParams r = false := by simpa using hv
                    rw [if_neg hv, ih, List.find?_cons_of_neg]
                    simp [acceptedForPhase, hi, href, hv']
              · rw [if_neg hi, ih, List.find?_cons_of_neg]
                simp [acceptedForPhase, hi]

/-- `find?` over an appended list searches the left part first. -/
theorem find?_append_cases (p : TxData → Bool) (l1 l2 : List TxData) :
    (l1 ++ l2).find? p = match l1.find? p with | some a => some a | none => l2.find? p := by
  induction l1 with
  | nil => rfl
  | cons a l ih =>
      by_cases h : p a = true
      · simp [List.find?_cons_of_pos, h]
      · simp only [List.cons_append, List.find?_cons_of_neg _ (by simpa using h), ih]

/-- The row-major matrix scan is the first match over the flattened matrix. -/
theorem scanMatrix_eq_find? (instruction : Nat) (validation : Option (SwapParams → RawPayload → Bool))
    (swapParams : SwapParams) (matrix : List (List TxData)) :
    scanMatrix instruction validation swapParams matrix
      = matrix.flatten.find? (acceptedForPhase instruction validation swapParams) := by
  induction matrix with
  | nil => rfl
  | cons row rows ih =>
      simp only [scanMatrix, List.flatten_cons, find?_append_cases, scanRow_eq_find?, ih]

/-- With a pointwise batch-fetch collaborator (`getParsedAndConfirmedTransactions`
returning one parsed transaction per reference, in order),
`_findTransactionByAddress` is the first acceptance-predicate match over the
address history's transactions in original order. -/
theorem findTransactionByAddress_eq_find? (getAddressHistory : String → List TxRef)
    (txOf : String → TxData) (address : String) (swapParams : SwapParams)
    (instruction : Nat) (validation : Option (SwapParams → RawPayload → Bool)) :
    findTransactionByAddress getAddressHistory (fun sigs => sigs.map txOf)
        address swapParams instruction validation
      = ((getAddressHistory address).map (fun t => txOf t.signature)).find?
          (acceptedForPhase instruction validation swapParams) := by
  simp only [findTransactionByAddress]
  rw [scanMatrix_eq_find?]
  congr 1
  rw [← List.map_flatten]
  have hflat : (batchSignatures (getAddressHistory address)).flatten
      = (getAddressHistory address).map (fun t => t.signature) := by
    simpa using goBatch_flatten (getAddressHistory address) 0 [] []
  rw [hflat, List.map_map]
  rfl

/-- C1: for every address history and phase tag, `_findTransactionByAddress`
returns the first transaction in original history order that is accepted —
tag match alone sufficing for the Refund tag, tag match plus a true
validation-predicate result required for the Initiate and Claim tags — and
returns absent (`none`) when no transaction in the history is accepted
(`find?` over the history realises exactly that first-match/absent
behaviour). -/
theorem findTransactionByAddress_first_accepted
    (getAddressHistory : String → List TxRef) (txOf : String → TxData)
    (address : String) (swapParams : SwapParams) (instruction : Nat)
    (v : SwapParams → RawPayload → Bool) :
    findTransactionByAddress getAddressHistory (fun sigs => sigs.map txOf)
        address swapParams instruction (some v)
      = ((getAddressHistory address).map (fun t => txOf t.signature)).find?
          (acceptedForPhase instruction (some v) swapParams) :=
  findTransactionByAddress_eq_find? getAddressHistory txOf address swapParams instruction (some v)

/-- C2: when a transaction is accepted for the Claim phase and its payload
carries a revealed secret, the returned transaction's `secret` field equals
the payload's revealed secret, given the (spec-modelled) collaborator
contract that parsed transactions surface the payload's revealed secret. -/
theorem claim_secret_attached
    (getAddressHistory : String → List TxRef) (txOf : String → TxData)
    (address : String) (swapParams : SwapParams) (v : SwapParams → RawPayload → Bool)
    (d : TxData) (r : RawPayload) (s : String)
    (hcollab : ∀ sig, exposesPayloadSecret (txOf sig) = true)
    (hfound : findTransactionByAddress getAddressHistory (fun sigs => sigs.map txOf)
        address swapParams Instructions.claim (some v) = some d)
    (hraw : d._raw = some r) (hsec : r.secret = some s) :
    d.secret = some s := by
  rw [findTransactionByAddress_eq_find?] at hfound
  have hmem : d ∈ (getAddressHistory address).map (fun t => txOf t.signature) :=
    List.mem_of_find?_eq_some hfound
  obtain ⟨t, _, hd⟩ := List.mem_map.1 hmem
  have hexp : exposesPayloadSecret d = true := hd ▸ hcollab t.signature
  simp only [exposesPayloadSecret, hraw, hsec, beq_iff_eq] at hexp
  exact hexp

/-- C2 (witness): a one-element history whose transaction carries secret
`"s0"` in its payload yields that same secret on the returned transaction. -/
theorem claim_secret_attached_witness :
    (TxData.mk "h0" (some (RawPayload.mk (some 1) "b" "l" "hsh" 0 0 (some "s0"))) (some "s0")).secret
      = some "s0" := by
  have hcollab : ∀ sig : String, exposesPayloadSecret
      ((fun _ => TxData.mk "h0" (some (RawPayload.mk (some 1) "b" "l" "hsh" 0 0 (some "s0")))
        (some "s0")) sig) = true := by
    intro sig
    show exposesPayloadSecret (TxData.mk "h0"
      (some (RawPayload.mk (some 1) "b" "l" "hsh" 0 0 (some "s0"))) (some "s0")) = true
    decide
  exact claim_secret_attached (fun _ => [TxRef.mk "sig0"])
    (fun _ => TxData.mk "h0" (some (RawPayload.mk (some 1) "b" "l" "hsh" 0 0 (some "s0"))) (some "s0"))
    "addr" (SwapParams.mk "r" "f" "hsh" 0 0) (fun _ _ => true)
    (TxData.mk "h0" (some (RawPayload.mk (some 1) "b" "l" "hsh" 0 0 (some "s0"))) (some "s0"))
    (RawPayload.mk (some 1) "b" "l" "hsh" 0 0 (some "s0")) "s0"
    hcollab (by decide) rfl rfl

/-- Inserting into a value-descending list permutes consing. -/
theorem insertDesc_perm (u : UTXO) (l : List UTXO) : (insertDesc u l).Perm (u :: l) := by
  induction l with
  | nil => exact List.Perm.refl _
  | cons v rest ih =>
      simp only [insertDesc]
      split
      · exact List.Perm.refl _
      · exact (ih.cons v).trans (List.Perm.swap u v rest)

/-- The descending sort is a permutation of its input. -/
theorem sortDesc_perm (l : List UTXO) : (sortDesc l).Perm l := by
  induction l with
  | nil => exact List.Perm.refl _
  | cons u rest ih => exact (insertDesc_perm u (sortDesc rest)).trans (ih.cons u)

/-- Permuted UTXO lists have the same total value. -/
theorem utxoTotal_perm {l l' : List UTXO} (h : l.Perm l') : utxoTotal l = utxoTotal l' := by
  simp only [utxoTotal]
  exact (h.map (fun u => u.value)).sum_eq

/-- When every non-empty prefix of the remaining candidates still leaves the
running selection short of the targets plus the fee recomputed for the inputs
selected at that point, the accumulative walk reaches the end of its
candidates and leaves the selection absent. -/
theorem accumulativeGo_no_prefix_covers (targets : List OutputTarget) (r : Rat) :
    ∀ (rest selected : List UTXO) (inAccum : Nat),
    (∀ p : List UTXO, p <+: rest → p ≠ [] →
        ((inAccum + utxoTotal p : Nat) : Rat)
          < targetsTotal targets
            + calculateFee (selected.length + p.length) (targets.length + 1) r) →
    (accumulativeGo targets r selected inAccum rest).inputs = none ∧
    (accumulativeGo targets r selected inAccum rest).outputs = none := by
  intro rest
  induction rest with
  | nil => intro selected inAccum h; exact ⟨rfl, rfl⟩
  | cons u rest ih =>
      intro selected inAccum h
      simp only [accumulativeGo]
      have hlt : ((inAccum + u.value : Nat) : Rat)
          < targetsTotal targets + calculateFee (selected ++ [u]).length (targets.length + 1) r := by
        have hu := h [u] ⟨rest, rfl⟩ (by simp)
        simp only [utxoTotal, List.map_cons, List.map_nil, List.sum_cons, List.sum_nil,
          List.length_cons, List.length_nil, List.length_append, Nat.add_zero] at hu ⊢
        exact hu
      rw [if_neg (not_le.mpr hlt)]
      apply ih (selected ++ [u]) (inAccum + u.value)
      intro p hp hne
      obtain ⟨t, ht⟩ := hp
      have h2 := h (u :: p) ⟨t, by rw [← ht]; rfl⟩ (by simp)
      have hsum : (inAccum + u.value + utxoTotal p : Nat) = inAccum + utxoTotal (u :: p) := by
        simp only [utxoTotal, List.map_cons, List.sum_cons]
        omega
      have hlen : (selected ++ [u]).length + p.length = selected.length + (u :: p).length := by
        simp only [List.length_append, List.length_cons, List.length_nil]
        omega
      rw [hsum, hlen]
      exact h2

/-- C4: when no subset of the available UTXOs (fixed inputs included) can
cover the target amounts plus the fee computed for that subset's input count,
`selectCoins` (run over the spec-modelled strategies) surfaces insufficient
funds as an absent selection: `inputs` and `outputs` are `none`, and no list
whatsoever (in particular no empty or zero-value one) is returned as a
successful selection. -/
theorem selectCoins_insufficient_funds (utxos : List UTXO) (targets : List OutputTarget)
    (feePerByte : Rat) (fixedInputs : List UTXO)
    (h : ∀ S : List UTXO, S.Sublist (fixedInputs ++ utxos) →
        ((utxoTotal S : Nat) : Rat)
          < targetsTotal targets
            + calculateFee S.length (targets.length + 1) ((⌈feePerByte⌉ : Int) : Rat)) :
    (selectCoins sizeOptimizingStrategy accumulativeStrategy utxos targets feePerByte fixedInputs).inputs = none ∧
    (selectCoins sizeOptimizingStrategy accumulativeStrategy utxos targets feePerByte fixedInputs).outputs = none ∧
    ∀ sel : List UTXO,
      (selectCoins sizeOptimizingStrategy accumulativeStrategy utxos targets feePerByte fixedInputs).inputs
        ≠ some sel := by
  cases fixedInputs with
  | nil =>
      have hmain : (sizeOptimizingStrategy utxos targets ⌈feePerByte⌉).inputs = none ∧
          (sizeOptimizingStrategy utxos targets ⌈feePerByte⌉).outputs = none := by
        apply accumulativeGo_no_prefix_covers targets _ (sortDesc utxos) [] 0
        intro p hp _
        have hsubperm : p.Subperm utxos :=
          (hp.sublist.subperm).trans (sortDesc_perm utxos).subperm
        obtain ⟨t, htp, hts⟩ := hsubperm
        have h1 := h t (by simpa using hts)
        rw [utxoTotal_perm htp, htp.length_eq] at h1
        simpa using h1
      refine ⟨hmain.1, hmain.2, ?_⟩
      intro sel
      rw [show (selectCoins sizeOptimizingStrategy accumulativeStrategy utxos targets feePerByte []).inputs
          = (sizeOptimizingStrategy utxos targets ⌈feePerByte⌉).inputs from rfl, hmain.1]
      simp
  | cons a l =>
      have hne : (a :: l).length ≠ 0 := by simp
      have hsel : selectCoins sizeOptimizingStrategy accumulativeStrategy utxos targets feePerByte (a :: l)
          = accumulativeStrategy ((a :: l) ++ utxos.filter (fun utxo =>
              !((a :: l).any (fun input => input.vout == utxo.vout && input.txid == utxo.txid))))
            targets ⌈feePerByte⌉ := by
        simp only [selectCoins]
        rw [if_pos hne, if_pos hne]
      have hmain : (accumulativeStrategy ((a :: l) ++ utxos.filter (fun utxo =>
              !((a :: l).any (fun input => input.vout == utxo.vout && input.txid == utxo.txid))))
            targets ⌈feePerByte⌉).inputs = none ∧
          (accumulativeStrategy ((a :: l) ++ utxos.filter (fun utxo =>
              !((a :: l).any (fun input => input.vout == utxo.vout && input.txid == utxo.txid))))
            targets ⌈feePerByte⌉).outputs = none := by
        apply accumulativeGo_no_prefix_covers targets _ _ [] 0
        intro p hp _
        have hsub : p.Sublist ((a :: l) ++ utxos) :=
          hp.sublist.trans (List.Sublist.append_left (List.filter_sublist _) (a :: l))
        have h1 := h p hsub
        simpa using h1
      refine ⟨?_, ?_, ?_⟩
      · rw [hsel]; exact hmain.1
      · rw [hsel]; exact hmain.2
      · intro sel; rw [hsel, hmain.1]; simp

/-- C4 (witness): a single 5-unit UTXO cannot fund a 100-unit target at fee
rate 1 with any input count, and the selection comes back absent. -/
theorem selectCoins_insufficient_witness :
    (selectCoins sizeOptimizingStrategy accumulativeStrategy
      [UTXO.mk "a" 0 5] [OutputTarget.mk "t" 100] 1 []).inputs = none := by
  refine (selectCoins_insufficient_funds [UTXO.mk "a" 0 5] [OutputTarget.mk "t" 100] 1 [] ?_).1
  intro S hS
  simp only [List.nil_append, List.sublist_singleton] at hS
  have hceil : (⌈(1 : Rat)⌉ : Int) = 1 := Int.ceil_one
  rcases hS with hS0 | hS1
  · subst hS0
    norm_num [utxoTotal, targetsTotal, calculateFee, hceil]
  · subst hS1
    norm_num [utxoTotal, targetsTotal, calculateFee, hceil]
